import Mathlib

/-!
Verification of the cross-partition CKD stage-progression merge-and-aggregate
engine implemented in `src/script.py`.

The script reduces each archive ("partition") of clinical condition records to
a per-patient earliest-date-per-stage map, merges those maps into a global
accumulator with a minimum-date-wins rule, and derives stage-transition
durations and summary statistics (mean, median, mode) from the merged result.

Dates are modelled as proleptic-Gregorian day numbers (`Nat`), matching the
behaviour of `pandas.Timestamp` subtraction in whole days.  Python dicts are
modelled as functions into `Option`; dict structural equality is function
equality.  Stages are `Fin 7` (0 = general CKD, 1..6 = specific stages).
-/

/-! ## Minimum on optional values

`optMin` is the combining rule the script applies at a single dict key:
absent-takes-present, both-present-takes-minimum (lines 188-190 and 199-202
of `src/script.py`). -/

def optMin : Option Nat → Option Nat → Option Nat
  | none, b => b
  | some d, none => some d
  | some d, some e => some (min d e)

/-- Minimum of a list of naturals, `none` on the empty list. -/
def listMin (l : List Nat) : Option Nat :=
  l.foldl (fun a d => optMin a (some d)) none

theorem optMin_none_right (a : Option Nat) : optMin a none = a := by
  cases a <;> rfl

theorem optMin_comm (a b : Option Nat) : optMin a b = optMin b a := by
  cases a <;> cases b <;> simp [optMin, Nat.min_comm]

theorem optMin_assoc (a b c : Option Nat) :
    optMin (optMin a b) c = optMin a (optMin b c) := by
  cases a <;> cases b <;> cases c <;> simp [optMin, Nat.min_assoc]

theorem foldl_optMin_eq (l : List Nat) :
    ∀ a : Option Nat, l.foldl (fun a d => optMin a (some d)) a = optMin a (listMin l) := by
  induction l with
  | nil => intro a; simp [List.foldl, listMin, optMin_none_right]
  | cons x xs ih =>
    intro a
    show List.foldl _ (optMin a (some x)) xs = _
    rw [ih (optMin a (some x)), optMin_assoc]
    have hx : listMin (x :: xs) = optMin (some x) (listMin xs) := by
      show List.foldl _ (optMin none (some x)) xs = _
      rw [ih (optMin none (some x))]
      rfl
    rw [hx]

theorem listMin_cons (x : Nat) (xs : List Nat) :
    listMin (x :: xs) = optMin (some x) (listMin xs) := by
  show List.foldl _ (optMin none (some x)) xs = _
  rw [foldl_optMin_eq]
  rfl

/-- A fold by a right-commutative operation is invariant under permutation of
the folded list.  Used for merge order-independence and for permutation
invariance of grouped minima. -/
theorem foldl_perm_inv {α β : Type _} {f : β → α → β}
    (hrc : ∀ b a₁ a₂, f (f b a₁) a₂ = f (f b a₂) a₁)
    {l₁ l₂ : List α} (p : l₁.Perm l₂) : ∀ b, l₁.foldl f b = l₂.foldl f b := by
  induction p with
  | nil => intro b; rfl
  | cons x _ ih => intro b; simp only [List.foldl_cons]; exact ih _
  | swap x y l => intro b; simp only [List.foldl_cons]; rw [hrc]
  | trans _ _ ih₁ ih₂ => intro b; rw [ih₁ b, ih₂ b]

theorem listMin_perm {l₁ l₂ : List Nat} (p : l₁.Perm l₂) : listMin l₁ = listMin l₂ :=
  foldl_perm_inv
    (fun a x y => by rw [optMin_assoc, optMin_assoc, optMin_comm (some x) (some y)]) p none

theorem listMin_mem {l : List Nat} {d : Nat} (h : listMin l = some d) : d ∈ l := by
  induction l generalizing d with
  | nil => simp [listMin, List.foldl] at h
  | cons x xs ih =>
    rw [listMin_cons] at h
    cases hxs : listMin xs with
    | none => rw [hxs, optMin_none_right] at h; cases h; exact List.mem_cons_self x xs
    | some e =>
      rw [hxs] at h
      simp only [optMin, Option.some.injEq] at h
      rcases Nat.le_total x e with hle | hle
      · rw [Nat.min_eq_left hle] at h; cases h; exact List.mem_cons_self x xs
      · rw [Nat.min_eq_right hle] at h; cases h; exact List.mem_cons_of_mem _ (ih hxs)

theorem listMin_eq_none {l : List Nat} (h : listMin l = none) : l = [] := by
  cases l with
  | nil => rfl
  | cons x xs =>
    rw [listMin_cons] at h
    cases hxs : listMin xs <;> rw [hxs] at h <;> simp [optMin] at h

theorem listMin_le {l : List Nat} {d : Nat} (h : listMin l = some d) :
    ∀ x ∈ l, d ≤ x := by
  induction l generalizing d with
  | nil => intro x hx; cases hx
  | cons y ys ih =>
    rw [listMin_cons] at h
    intro x hx
    cases hys : listMin ys with
    | none =>
      rw [hys, optMin_none_right] at h
      cases h
      rcases List.mem_cons.mp hx with rfl | hx'
      · exact Nat.le_refl x
      · rw [listMin_eq_none hys] at hx'; cases hx'
    | some e =>
      rw [hys] at h
      simp only [optMin, Option.some.injEq] at h
      rcases List.mem_cons.mp hx with rfl | hx'
      · rw [← h]; exact Nat.min_le_left _ _
      · rw [← h]; exact Nat.le_trans (Nat.min_le_right _ _) (ih hys x hx')

theorem optMin_some_of_le {a : Nat} {ds : List Nat} (h : ∀ x ∈ ds, a ≤ x) :
    optMin (some a) (listMin ds) = some a := by
  cases hds : listMin ds with
  | none => rfl
  | some d =>
    have := h d (listMin_mem hds)
    simp [optMin, Nat.min_eq_left this]

/-! ## Stage maps and the global merge store

`StageMap` models one patient's `{stage: earliest_date}` dict; `Glob` models
`global_patient_progression_details` (patient → stage map), with the
`'diagnoses'` wrapper dict flattened away (it is the only key the merge
touches). -/

abbrev StageMap := Fin 7 → Option Nat

abbrev Glob (Pid : Type) := Pid → Option StageMap

def emptyStageMap : StageMap := fun _ => none

def emptyGlob {Pid : Type} : Glob Pid := fun _ => none

/-- Per-stage merge of an existing patient entry with a partition's
contribution: `src/script.py` lines 199-202 (`if stage not in ... or
date_val < ...`). -/
def mergeStage (g p : StageMap) : StageMap := fun s =>
  match p s, g s with
  | none, d => d
  | some dp, none => some dp
  | some dp, some dg => some (if dp < dg then dp else dg)

/-- Merge of a whole partition map into the global store:
`src/script.py` lines 195-202 (insert new patients whole, per-stage minimum
for existing patients). -/
def mergeGlob {Pid : Type} (g p : Glob Pid) : Glob Pid := fun q =>
  match p q, g q with
  | none, m => m
  | some mp, none => some mp
  | some mp, some mg => some (mergeStage mg mp)

/-- Merge of a single patient's contribution, the atomic unit the script's
aggregation loop (lines 196-202) performs once per patient of a partition. -/
def mergeOne {Pid : Type} [DecidableEq Pid] (g : Glob Pid) (pid : Pid) (m : StageMap) :
    Glob Pid := fun q =>
  if q = pid then
    match g pid with
    | none => some m
    | some mg => some (mergeStage mg m)
  else g q

/-- Date stored in the global store for a (patient, stage) pair. -/
def lookupG {Pid : Type} (g : Glob Pid) (q : Pid) (s : Fin 7) : Option Nat :=
  match g q with
  | none => none
  | some m => m s

/-- Post-loop cleanup, `src/script.py` lines 220-236: patients whose
aggregated stage dict is empty are deleted from the store (the stage-sorted
reordering of the surviving dicts has no effect on dict content and is not
modelled). -/
def cleanupGlob {Pid : Type} (g : Glob Pid) : Glob Pid := fun q =>
  match g q with
  | none => none
  | some m => if ∀ s, m s = none then none else some m

theorem mergeStage_eq_optMin (g p : StageMap) (s : Fin 7) :
    mergeStage g p s = optMin (g s) (p s) := by
  rcases hp : p s with _ | dp <;> rcases hg : g s with _ | dg <;>
    simp only [mergeStage, optMin, hp, hg, Option.some.injEq, Nat.min_def]
  split_ifs <;> omega

theorem mergeStage_comm (a b : StageMap) : mergeStage a b = mergeStage b a := by
  funext s
  rw [mergeStage_eq_optMin, mergeStage_eq_optMin, optMin_comm]

theorem mergeStage_assoc (a b c : StageMap) :
    mergeStage (mergeStage a b) c = mergeStage a (mergeStage b c) := by
  funext s
  rw [mergeStage_eq_optMin, mergeStage_eq_optMin, mergeStage_eq_optMin,
    mergeStage_eq_optMin, optMin_assoc]

theorem mergeGlob_comm {Pid : Type} (a b : Glob Pid) : mergeGlob a b = mergeGlob b a := by
  funext q
  simp only [mergeGlob]
  cases a q <;> cases b q
  · rfl
  · rfl
  · rfl
  · exact congrArg some (mergeStage_comm _ _)

theorem mergeGlob_assoc {Pid : Type} (a b c : Glob Pid) :
    mergeGlob (mergeGlob a b) c = mergeGlob a (mergeGlob b c) := by
  funext q
  simp only [mergeGlob]
  cases a q <;> cases b q <;> cases c q <;> try rfl
  exact congrArg some (mergeStage_assoc _ _ _)

theorem lookupG_mergeGlob {Pid : Type} (g p : Glob Pid) (q : Pid) (s : Fin 7) :
    lookupG (mergeGlob g p) q s = optMin (lookupG g q s) (lookupG p q s) := by
  simp only [lookupG, mergeGlob]
  cases hp : p q <;> cases hg : g q
  · rfl
  · exact (optMin_none_right _).symm
  · rfl
  · exact mergeStage_eq_optMin _ _ s

/-! ## Calendar

Proleptic Gregorian day numbers, matching the whole-day arithmetic of
`pandas.Timestamp` subtraction (`.days`) used at line 259 of
`src/script.py`. -/

def isLeap (y : Nat) : Bool :=
  (y % 4 == 0 && y % 100 != 0) || y % 400 == 0

def daysInMonth (y m : Nat) : Nat :=
  if m = 2 then (if isLeap y then 29 else 28)
  else if m = 4 ∨ m = 6 ∨ m = 9 ∨ m = 11 then 30
  else 31

def daysBeforeMonth (y m : Nat) : Nat :=
  (List.range (m - 1)).foldl (fun acc i => acc + daysInMonth y (i + 1)) 0

def leapsBefore (y : Nat) : Nat :=
  (y - 1) / 4 - (y - 1) / 100 + (y - 1) / 400

/-- Day number of the calendar date `y-m-d` (1-based day of a 1-based month). -/
def toDayNumber (y m d : Nat) : Nat :=
  365 * (y - 1) + leapsBefore y + daysBeforeMonth y m + d

def CKD_DATE_RANGE_START : Nat := toDayNumber 1997 1 1

def CKD_DATE_RANGE_END : Nat := toDayNumber 2023 12 31

/-! ## Stage classifier and population membership (normalizer)

`ckd_snomed_codes` and `map_code_to_stage` are the candidate-code list and
the code-to-stage classifier of `src/script.py` lines 17-42.  Note that four
of the twelve candidate codes map to `np.nan` (modelled as `none`). -/

def ckd_snomed_codes : List String :=
  ["431855005", "431856006", "433144002", "431857002", "433146000",
   "709044004", "714153000", "714152005", "713313000", "722149000",
   "726018006", "723373006"]

def map_code_to_stage (code : String) : Option (Fin 7) :=
  if code = "431855005" then some 1
  else if code = "431856006" then some 2
  else if code = "433144002" then some 3
  else if code = "431857002" then some 4
  else if code = "433146000" ∨ code = "714153000" then some 5
  else if code = "714152005" then some 6
  else if code = "709044004" then some 0
  else none

/-- One condition row of a partition after CSV parsing: `occurred_on` is
`none` when the `START` field is missing or unparsable (pandas `NaT`). -/
structure CondRec (Pid : Type) where
  patient : Pid
  code : String
  occurred_on : Option Nat

/-- Date-window filter of `src/script.py` lines 132-136 (`NaT` rows fail
both comparisons and are dropped). -/
def in_window {Pid : Type} (r : CondRec Pid) : Bool :=
  match r.occurred_on with
  | some d => decide (CKD_DATE_RANGE_START ≤ d) && decide (d ≤ CKD_DATE_RANGE_END)
  | none => false

/-- In-window rows whose code is in the candidate CKD list:
`src/script.py` lines 132-143 (`temp_ckd_conditions_df`). -/
def relevantConditions {Pid : Type} (rows : List (CondRec Pid)) : List (CondRec Pid) :=
  (rows.filter in_window).filter (fun r => decide (r.code ∈ ckd_snomed_codes))

/-- Patient ids a partition adds to `all_ckd_patient_ids_overall_set`:
`src/script.py` lines 149-150. -/
def current_archive_ckd_patient_ids {Pid : Type} (rows : List (CondRec Pid)) : List Pid :=
  (relevantConditions rows).map (fun r => r.patient)

theorem map_code_mem_candidates {c : String} (h : map_code_to_stage c ≠ none) :
    c ∈ ckd_snomed_codes := by
  unfold map_code_to_stage at h
  split_ifs at h with h1 h2 h3 h4 h5 h6 h7
  · simp [ckd_snomed_codes, h1]
  · simp [ckd_snomed_codes, h2]
  · simp [ckd_snomed_codes, h3]
  · simp [ckd_snomed_codes, h4]
  · rcases h5 with h5 | h5 <;> simp [ckd_snomed_codes, h5]
  · simp [ckd_snomed_codes, h6]
  · simp [ckd_snomed_codes, h7]
  · exact absurd rfl h

theorem mem_current_archive_ids {Pid : Type} (rows : List (CondRec Pid)) (q : Pid) :
    q ∈ current_archive_ckd_patient_ids rows ↔
      ∃ r ∈ rows, in_window r = true ∧ r.code ∈ ckd_snomed_codes ∧ r.patient = q := by
  simp only [current_archive_ckd_patient_ids, relevantConditions, List.mem_map,
    List.mem_filter, decide_eq_true_eq]
  constructor
  · rintro ⟨r, ⟨⟨hr, hw⟩, hc⟩, hq⟩
    exact ⟨r, hr, hw, hc, hq⟩
  · rintro ⟨r, hr, hw, hc, hq⟩
    exact ⟨r, ⟨⟨hr, hw⟩, hc⟩, hq⟩

/-! ## Transition calculator

`stage_transitions` (lines 45-51) and the per-patient transition loop
(lines 253-263): for each configured pair with both stages present, an
observation is emitted exactly when the `to` date is strictly later. -/

def stage_transitions : List (String × Fin 7 × Fin 7) :=
  [("Stage 1 to Stage 2", 1, 2),
   ("Stage 2 to Stage 3", 2, 3),
   ("Stage 3 to Stage 4", 3, 4),
   ("Stage 4 to Stage 5", 4, 5),
   ("Stage 5 to End Stage Renal Disease", 5, 6)]

/-- Observations `(transition_name, duration_days)` emitted for one patient's
merged stage map: `src/script.py` lines 253-263. -/
def transitionsFor (m : StageMap) : List (String × Nat) :=
  stage_transitions.filterMap (fun nft =>
    match m nft.2.1, m nft.2.2 with
    | some date_from, some date_to =>
        if date_from < date_to then some (nft.1, date_to - date_from) else none
    | _, _ => none)

/-- Observations emitted for one patient of the global store. -/
def patientTransitions {Pid : Type} (g : Glob Pid) (q : Pid) : List (String × Nat) :=
  match g q with
  | none => []
  | some m => transitionsFor m

/-! ## Per-partition earliest-stage reducer

One patient's staged rows are `(stage, date)` pairs.  The script
(lines 172-190) sorts them by date ascending then stage descending, drops
duplicate stages keeping the first, re-sorts by date, and finally folds the
rows into a dict with a per-row minimum update.  pandas `sort_values` is
modelled by an insertion sort over the same (total, transitive) key order;
rows equal under the order have identical stage and date, so any
order-consistent sort yields the same reduction. -/

abbrev StagedRow := Fin 7 × Nat

/-- Key order of `sort_values(by=['START', 'CKD_STAGE'], ascending=[True, False])`. -/
def rowLe (a b : StagedRow) : Prop :=
  a.2 < b.2 ∨ (a.2 = b.2 ∧ b.1 ≤ a.1)

instance : DecidableRel rowLe := fun a b => by
  unfold rowLe
  exact inferInstance

/-- Key order of the second `sort_values('START')` pass (line 178). -/
def dateLe (a b : StagedRow) : Prop := a.2 ≤ b.2

instance : DecidableRel dateLe := fun a b => by
  unfold dateLe
  exact inferInstance

def insertSorted {α : Type _} (le : α → α → Prop) [DecidableRel le] (a : α) :
    List α → List α
  | [] => [a]
  | b :: l => if le a b then a :: b :: l else b :: insertSorted le a l

def sortBy {α : Type _} (le : α → α → Prop) [DecidableRel le] (l : List α) : List α :=
  l.foldr (insertSorted le) []

/-- `drop_duplicates(subset=key, keep='first')` with an accumulator of keys
already seen. -/
def dropDupOn {α β : Type _} [DecidableEq β] (key : α → β) :
    List α → List β → List α
  | [], _ => []
  | a :: l, seen =>
      if key a ∈ seen then dropDupOn key l seen
      else a :: dropDupOn key l (key a :: seen)

/-- One step of the dict-building loop at lines 182-190: keep the earlier
date per stage. -/
def updRow (m : StageMap) (r : StagedRow) : StageMap := fun s =>
  if r.1 = s then
    match m s with
    | none => some r.2
    | some d => if r.2 < d then some r.2 else some d
  else m s

/-- Dates a row list carries for one stage. -/
def obsDates (l : List StagedRow) (s : Fin 7) : List Nat :=
  l.filterMap (fun r => if r.1 = s then some r.2 else none)

/-- The implemented multi-pass reduction of one patient's rows
(`src/script.py` lines 172-190): sort by (date asc, stage desc), drop
duplicate stages keeping the first, re-sort by date, then fold with the
per-row minimum update. -/
def reducePatientRows (l : List StagedRow) : StageMap :=
  (sortBy dateLe (dropDupOn Prod.fst (sortBy rowLe l) [])).foldl updRow emptyStageMap

/-- Modelled from the spec (§4.2): the direct grouped-minimum reduction —
group by stage and keep the minimum date. -/
def groupedMinReducer (l : List StagedRow) : StageMap := fun s =>
  listMin (obsDates l s)

theorem insertSorted_perm {α : Type _} (le : α → α → Prop) [DecidableRel le]
    (a : α) (l : List α) : (insertSorted le a l).Perm (a :: l) := by
  induction l with
  | nil => exact List.Perm.refl _
  | cons b t ih =>
    simp only [insertSorted]
    split
    · exact List.Perm.refl _
    · exact (ih.cons b).trans (List.Perm.swap a b t)

theorem sortBy_perm {α : Type _} (le : α → α → Prop) [DecidableRel le]
    (l : List α) : (sortBy le l).Perm l := by
  induction l with
  | nil => exact List.Perm.refl _
  | cons x t ih =>
    exact (insertSorted_perm le x (sortBy le t)).trans (ih.cons x)

theorem insertSorted_pairwise {α : Type _} {le : α → α → Prop} [DecidableRel le]
    (total : ∀ x y, ¬ le x y → le y x)
    (htrans : ∀ x y z, le x y → le y z → le x z) (a : α) :
    ∀ {l : List α}, l.Pairwise le → (insertSorted le a l).Pairwise le := by
  intro l
  induction l with
  | nil => intro _; exact List.pairwise_singleton le a
  | cons b t ih =>
    intro h
    rcases List.pairwise_cons.mp h with ⟨hb, ht⟩
    simp only [insertSorted]
    split
    next hab =>
      refine List.pairwise_cons.mpr ⟨?_, h⟩
      intro x hx
      rcases List.mem_cons.mp hx with rfl | hx'
      · exact hab
      · exact htrans a b x hab (hb x hx')
    next hab =>
      refine List.pairwise_cons.mpr ⟨?_, ih ht⟩
      intro x hx
      have hmem := (insertSorted_perm le a t).mem_iff.mp hx
      rcases List.mem_cons.mp hmem with hxa | hx'
      · cases hxa
        exact total a b hab
      · exact hb x hx'

theorem sortBy_pairwise {α : Type _} {le : α → α → Prop} [DecidableRel le]
    (total : ∀ x y, ¬ le x y → le y x)
    (htrans : ∀ x y z, le x y → le y z → le x z) (l : List α) :
    (sortBy le l).Pairwise le := by
  induction l with
  | nil => exact List.Pairwise.nil
  | cons x t ih => exact insertSorted_pairwise total htrans x ih

theorem rowLe_total : ∀ x y : StagedRow, ¬ rowLe x y → rowLe y x := by
  intro x y h
  unfold rowLe at *
  simp only [Fin.le_def] at *
  omega

theorem rowLe_trans : ∀ x y z : StagedRow, rowLe x y → rowLe y z → rowLe x z := by
  intro x y z hxy hyz
  unfold rowLe at *
  simp only [Fin.le_def] at *
  omega

theorem dateLe_total : ∀ x y : StagedRow, ¬ dateLe x y → dateLe y x := by
  intro x y h
  unfold dateLe at *
  omega

theorem dateLe_trans : ∀ x y z : StagedRow, dateLe x y → dateLe y z → dateLe x z := by
  intro x y z h1 h2
  unfold dateLe at *
  omega

theorem updRow_apply (m : StageMap) (r : StagedRow) (s : Fin 7) :
    updRow m r s = if r.1 = s then optMin (m s) (some r.2) else m s := by
  unfold updRow
  split
  · cases hm : m s
    · rfl
    · next d =>
      simp only [optMin]
      rcases Nat.lt_or_ge r.2 d with h | h
      · rw [if_pos h, Nat.min_eq_right (Nat.le_of_lt h)]
      · rw [if_neg (Nat.not_lt.mpr h), Nat.min_eq_left h]
  · rfl

theorem obsDates_cons (r : StagedRow) (l : List StagedRow) (s : Fin 7) :
    obsDates (r :: l) s = if r.1 = s then r.2 :: obsDates l s else obsDates l s := by
  unfold obsDates
  rw [List.filterMap_cons]
  split <;> split <;> simp_all

theorem mem_obsDates {l : List StagedRow} {s : Fin 7} {x : Nat} :
    x ∈ obsDates l s ↔ ∃ r ∈ l, r.1 = s ∧ r.2 = x := by
  unfold obsDates
  rw [List.mem_filterMap]
  constructor
  · rintro ⟨r, hr, hx⟩
    split at hx
    · exact ⟨r, hr, by assumption, (Option.some.injEq _ _).mp hx⟩
    · cases hx
  · rintro ⟨r, hr, hs, hx⟩
    exact ⟨r, hr, by rw [if_pos hs, hx]⟩

/-- Master lemma: the per-row minimum-update fold computes exactly the
grouped minimum, from any starting map and for any row order. -/
theorem foldl_updRow_eq (l : List StagedRow) :
    ∀ (m : StageMap) (s : Fin 7),
      (l.foldl updRow m) s = optMin (m s) (listMin (obsDates l s)) := by
  induction l with
  | nil =>
    intro m s
    simp [obsDates, listMin, List.foldl, optMin_none_right]
  | cons r t ih =>
    intro m s
    rw [List.foldl_cons, ih (updRow m r) s, updRow_apply, obsDates_cons]
    by_cases hs : r.1 = s
    · rw [if_pos hs, if_pos hs, listMin_cons, ← optMin_assoc]
    · rw [if_neg hs, if_neg hs]

theorem obsDates_perm {l₁ l₂ : List StagedRow} (p : l₁.Perm l₂) (s : Fin 7) :
    (obsDates l₁ s).Perm (obsDates l₂ s) :=
  p.filterMap _

theorem mem_dropDupOn_seen {α β : Type _} [DecidableEq β] (key : α → β) :
    ∀ (l : List α) (seen : List β) (a : α), a ∈ dropDupOn key l seen → key a ∉ seen := by
  intro l
  induction l with
  | nil => intro seen a h; cases h
  | cons b t ih =>
    intro seen a h
    unfold dropDupOn at h
    split at h
    · exact ih seen a h
    · rcases List.mem_cons.mp h with rfl | h'
      · assumption
      · intro hmem
        exact ih _ a h' (List.mem_cons_of_mem _ hmem)

theorem dropDupOn_seen_congr {α β : Type _} [DecidableEq β] (key : α → β) :
    ∀ (l : List α) (s₁ s₂ : List β), (∀ b, b ∈ s₁ ↔ b ∈ s₂) →
      dropDupOn key l s₁ = dropDupOn key l s₂ := by
  intro l
  induction l with
  | nil => intro s₁ s₂ _; rfl
  | cons a t ih =>
    intro s₁ s₂ hiff
    unfold dropDupOn
    by_cases h : key a ∈ s₁
    · rw [if_pos h, if_pos ((hiff _).mp h), ih s₁ s₂ hiff]
    · rw [if_neg h, if_neg (fun hc => h ((hiff _).mpr hc))]
      congr 1
      refine ih _ _ (fun b => ?_)
      simp only [List.mem_cons]
      exact or_congr Iff.rfl (hiff b)

theorem obsDates_dropDupOn_of_seen :
    ∀ (l : List StagedRow) (seen : List (Fin 7)) (s : Fin 7), s ∈ seen →
      obsDates (dropDupOn Prod.fst l seen) s = [] := by
  intro l
  induction l with
  | nil => intro seen s _; rfl
  | cons r t ih =>
    intro seen s hs
    unfold dropDupOn
    split
    · exact ih seen s hs
    · next hk =>
      rw [obsDates_cons, if_neg (fun hc : r.1 = s => hk (by rw [hc]; exact hs)),
        ih (r.1 :: seen) s (List.mem_cons_of_mem _ hs)]

/-- Dropping duplicate stages after a (date asc, stage desc) sort preserves
the per-stage minimum: the first retained row of a stage carries that
stage's earliest date. -/
theorem listMin_obsDates_dropDupOn :
    ∀ (l : List StagedRow), l.Pairwise rowLe →
      ∀ (seen : List (Fin 7)) (s : Fin 7), s ∉ seen →
        listMin (obsDates (dropDupOn Prod.fst l seen) s) = listMin (obsDates l s) := by
  intro l
  induction l with
  | nil => intro _ seen s _; rfl
  | cons r t ih =>
    intro hp seen s hs
    rcases List.pairwise_cons.mp hp with ⟨hr, ht⟩
    unfold dropDupOn
    by_cases hk : r.1 ∈ seen
    · rw [if_pos hk, obsDates_cons, if_neg (fun hc : r.1 = s => hs (by rw [← hc]; exact hk)),
        ih ht seen s hs]
    · rw [if_neg hk]
      by_cases hrs : r.1 = s
      · rw [obsDates_cons, if_pos hrs, obsDates_cons, if_pos hrs,
          obsDates_dropDupOn_of_seen t (r.1 :: seen) s (hrs ▸ List.mem_cons_self r.1 seen),
          listMin_cons, listMin_cons]
        show optMin (some r.2) (listMin []) = _
        rw [show listMin [] = none from rfl, optMin_none_right]
        refine (optMin_some_of_le ?_).symm
        intro x hx
        rcases mem_obsDates.mp hx with ⟨b, hb, hbs, hbx⟩
        rcases hr b hb with h1 | ⟨h1, _⟩
        · exact hbx ▸ Nat.le_of_lt h1
        · exact hbx ▸ Nat.le_of_eq h1
      · rw [obsDates_cons, if_neg hrs, obsDates_cons, if_neg hrs,
          ih ht (r.1 :: seen) s (by simp [List.mem_cons, hrs, hs]; intro hc; exact hrs hc.symm)]

theorem reducePatientRows_eq_groupedMin (l : List StagedRow) :
    reducePatientRows l = groupedMinReducer l := by
  funext s
  unfold reducePatientRows groupedMinReducer
  rw [foldl_updRow_eq]
  show optMin none _ = _
  rw [show ∀ a, optMin none a = a from fun a => rfl]
  rw [listMin_perm (obsDates_perm (sortBy_perm dateLe _) s),
    listMin_obsDates_dropDupOn (sortBy rowLe l)
      (sortBy_pairwise rowLe_total rowLe_trans l) [] s (List.not_mem_nil s),
    listMin_perm (obsDates_perm (sortBy_perm rowLe l) s)]

theorem groupedMinReducer_perm {l₁ l₂ : List StagedRow} (p : l₁.Perm l₂) :
    groupedMinReducer l₁ = groupedMinReducer l₂ := by
  funext s
  exact listMin_perm (obsDates_perm p s)

/-! ## Aggregate statistics: mode computation

`collections.Counter(durations)` (line 277) is a dict from value to count
whose keys appear in first-occurrence order.  It is modelled as an
association list built by a fold; `max(data_counts.values())` is a fold of
`Nat.max` over the counts; `modes` keeps every key attaining the maximum
frequency, in key order (lines 280-286). -/

def counterAdd (c : List (Nat × Nat)) (x : Nat) : List (Nat × Nat) :=
  match c with
  | [] => [(x, 1)]
  | (v, n) :: rest => if v = x then (v, n + 1) :: rest else (v, n) :: counterAdd rest x

def counter (l : List Nat) : List (Nat × Nat) := l.foldl counterAdd []

/-- `max(data_counts.values())` (line 280); the script only evaluates it on
a non-empty counter, where the fold from 0 agrees with Python's `max`. -/
def maxFreq (l : List Nat) : Nat := ((counter l).map Prod.snd).foldl Nat.max 0

/-- `modes` (line 282): every duration value whose frequency attains the
maximum, in counter (first-occurrence) order. -/
def modes (l : List Nat) : List Nat :=
  (counter l).filterMap (fun vn => if vn.2 = maxFreq l then some vn.1 else none)

/-- Mode branch of the summary loop (lines 279-289): `none` models the
`"N/A (no data)"` sentinel with frequency 0. -/
def modeResult (l : List Nat) : Option (List Nat × Nat) :=
  if (counter l).isEmpty then none else some (modes l, maxFreq l)

/-- Keys of a counter in first-occurrence order. -/
def firstOccs (l : List Nat) : List Nat := dropDupOn id l []

theorem dropDupOn_cons_mem {α β : Type _} [DecidableEq β] (key : α → β)
    (a : α) (l : List α) (seen : List β) (h : key a ∈ seen) :
    dropDupOn key (a :: l) seen = dropDupOn key l seen := by
  show (if key a ∈ seen then dropDupOn key l seen
    else a :: dropDupOn key l (key a :: seen)) = _
  rw [if_pos h]

theorem dropDupOn_cons_not_mem {α β : Type _} [DecidableEq β] (key : α → β)
    (a : α) (l : List α) (seen : List β) (h : key a ∉ seen) :
    dropDupOn key (a :: l) seen = a :: dropDupOn key l (key a :: seen) := by
  show (if key a ∈ seen then dropDupOn key l seen
    else a :: dropDupOn key l (key a :: seen)) = _
  rw [if_neg h]

theorem counterAdd_keys (c : List (Nat × Nat)) (x : Nat) :
    (counterAdd c x).map Prod.fst =
      if x ∈ c.map Prod.fst then c.map Prod.fst else c.map Prod.fst ++ [x] := by
  induction c with
  | nil => rfl
  | cons vn rest ih =>
    rcases vn with ⟨v, n⟩
    unfold counterAdd
    by_cases hv : v = x
    · rw [if_pos hv]
      simp [hv]
    · rw [if_neg hv]
      simp only [List.map_cons, List.mem_cons]
      rw [ih]
      by_cases hx : x ∈ rest.map Prod.fst
      · rw [if_pos hx, if_pos (Or.inr hx)]
      · rw [if_neg hx, if_neg (by rintro (h | h); exact hv h.symm; exact hx h)]
        simp

theorem counterAdd_not_mem (c : List (Nat × Nat)) (x : Nat)
    (h : x ∉ c.map Prod.fst) : counterAdd c x = c ++ [(x, 1)] := by
  induction c with
  | nil => rfl
  | cons vn rest ih =>
    rcases vn with ⟨v, n⟩
    unfold counterAdd
    rw [if_neg (fun hv => h (by simp [hv]))]
    rw [ih (fun hm => h (by simp [hm]))]
    rfl

theorem counterAdd_map_bump (x : Nat) :
    ∀ (c : List (Nat × Nat)), (c.map Prod.fst).Nodup → x ∈ c.map Prod.fst →
      ∀ (l : List Nat),
        (counterAdd c x).map (fun vn => (vn.1, vn.2 + l.count vn.1)) =
          c.map (fun vn => (vn.1, vn.2 + (x :: l).count vn.1)) := by
  intro c
  induction c with
  | nil => intro _ hx; cases hx
  | cons vn rest ih =>
    rcases vn with ⟨v, n⟩
    intro hnd hx l
    simp only [List.map_cons, List.nodup_cons] at hnd
    rcases hnd with ⟨hvrest, hndrest⟩
    unfold counterAdd
    by_cases hv : v = x
    · rw [if_pos hv]
      simp only [List.map_cons]
      congr 1
      · have : (x :: l).count v = l.count v + 1 := by
          rw [hv, List.count_cons_self]
        simp only [this]
        congr 1
        omega
      · refine List.map_congr_left (fun wm hwm => ?_)
        have hne : wm.1 ≠ x := by
          intro hc
          exact hvrest (by rw [hv, ← hc]; exact List.mem_map_of_mem Prod.fst hwm)
        have : (x :: l).count wm.1 = l.count wm.1 := by
          rw [List.count_cons_of_ne hne]
        rw [this]
    · rw [if_neg hv]
      have hxrest : x ∈ rest.map Prod.fst := by
        rcases List.mem_cons.mp hx with h | h
        · exact absurd h.symm hv
        · exact h
      simp only [List.map_cons]
      congr 1
      · have : (x :: l).count v = l.count v := List.count_cons_of_ne hv _
        rw [this]
      · exact ih hndrest hxrest l

theorem counter_spec :
    ∀ (l : List Nat) (c : List (Nat × Nat)), (c.map Prod.fst).Nodup →
      List.foldl counterAdd c l =
        c.map (fun vn => (vn.1, vn.2 + l.count vn.1)) ++
          (dropDupOn id l (c.map Prod.fst)).map (fun v => (v, l.count v)) := by
  intro l
  induction l with
  | nil =>
    intro c _
    simp [List.count_nil, dropDupOn]
  | cons x l ih =>
    intro c hnd
    rw [List.foldl_cons]
    by_cases hx : x ∈ c.map Prod.fst
    · have hkeys : (counterAdd c x).map Prod.fst = c.map Prod.fst := by
        rw [counterAdd_keys, if_pos hx]
      rw [ih (counterAdd c x) (by rw [hkeys]; exact hnd), hkeys]
      rw [dropDupOn_cons_mem id x l (c.map Prod.fst) hx]
      congr 1
      · exact counterAdd_map_bump x c hnd hx l
      · refine List.map_congr_left (fun v hv => ?_)
        have hvs : v ∉ c.map Prod.fst := mem_dropDupOn_seen id _ _ v hv
        have hne : v ≠ x := fun hc => hvs (hc ▸ hx)
        rw [List.count_cons_of_ne hne]
    · have hadd : counterAdd c x = c ++ [(x, 1)] := counterAdd_not_mem c x hx
      have hkeys : (counterAdd c x).map Prod.fst = c.map Prod.fst ++ [x] := by
        rw [hadd, List.map_append]
        rfl
      have hnd2 : ((counterAdd c x).map Prod.fst).Nodup := by
        rw [hkeys]
        simp [List.nodup_append, hnd, hx]
      rw [ih (counterAdd c x) hnd2, hkeys, hadd]
      rw [dropDupOn_seen_congr id l (c.map Prod.fst ++ [x]) (x :: c.map Prod.fst)
        (fun b => by simp [List.mem_append, List.mem_cons, or_comm])]
      rw [dropDupOn_cons_not_mem id x l (c.map Prod.fst) hx]
      rw [List.map_append, List.append_assoc]
      congr 1
      · refine List.map_congr_left (fun wm hwm => ?_)
        have hne : wm.1 ≠ x := fun hc =>
          hx (hc ▸ List.mem_map_of_mem Prod.fst hwm)
        rw [List.count_cons_of_ne hne]
      · simp only [List.map_cons, List.map_nil, List.singleton_append]
        congr 1
        · rw [List.count_cons_self]
          congr 1
          omega
        · refine List.map_congr_left (fun v hv => ?_)
          have hvs : v ∉ x :: c.map Prod.fst := mem_dropDupOn_seen id _ _ v hv
          have hne : v ≠ x := fun hc => hvs (hc ▸ List.mem_cons_self x _)
          rw [List.count_cons_of_ne hne]

/-- The counter is exactly the first-occurrence key list paired with the
occurrence counts. -/
theorem counter_eq (l : List Nat) :
    counter l = (firstOccs l).map (fun v => (v, l.count v)) := by
  have := counter_spec l [] (by simp)
  simpa [counter, firstOccs] using this

theorem le_foldl_max : ∀ (l : List Nat) (b : Nat), b ≤ l.foldl Nat.max b := by
  intro l
  induction l with
  | nil => intro b; exact Nat.le_refl b
  | cons x t ih =>
    intro b
    exact Nat.le_trans (Nat.le_max_left b x) (ih (Nat.max b x))

theorem mem_le_foldl_max : ∀ (l : List Nat) (b a : Nat), a ∈ l → a ≤ l.foldl Nat.max b := by
  intro l
  induction l with
  | nil => intro b a ha; cases ha
  | cons x t ih =>
    intro b a ha
    rcases List.mem_cons.mp ha with rfl | ha'
    · exact Nat.le_trans (Nat.le_max_right b a) (le_foldl_max t (Nat.max b a))
    · exact ih (Nat.max b x) a ha'

theorem foldl_max_mem : ∀ (l : List Nat) (b : Nat),
    l.foldl Nat.max b = b ∨ l.foldl Nat.max b ∈ l := by
  intro l
  induction l with
  | nil => intro b; exact Or.inl rfl
  | cons x t ih =>
    intro b
    rcases ih (Nat.max b x) with h | h
    · rw [List.foldl_cons, h]
      rcases Nat.le_total b x with hbx | hbx
      · have hm : Nat.max b x = x := Nat.max_eq_right hbx
        exact Or.inr (by rw [hm]; exact List.mem_cons_self x t)
      · have hm : Nat.max b x = b := Nat.max_eq_left hbx
        exact Or.inl hm
    · exact Or.inr (List.mem_cons_of_mem x h)

theorem mem_dropDupOn_id :
    ∀ (l : List Nat) (seen : List Nat) (v : Nat),
      v ∈ dropDupOn id l seen ↔ v ∈ l ∧ v ∉ seen := by
  intro l
  induction l with
  | nil => intro seen v; simp [dropDupOn]
  | cons a t ih =>
    intro seen v
    by_cases ha : a ∈ seen
    · rw [dropDupOn_cons_mem id a t seen ha, ih seen v]
      constructor
      · rintro ⟨hv, hs⟩
        exact ⟨List.mem_cons_of_mem a hv, hs⟩
      · rintro ⟨hv, hs⟩
        rcases List.mem_cons.mp hv with rfl | hv'
        · exact absurd ha hs
        · exact ⟨hv', hs⟩
    · rw [dropDupOn_cons_not_mem id a t seen ha]
      simp only [id_eq, List.mem_cons, ih (a :: seen) v]
      constructor
      · rintro (rfl | ⟨hv, hs⟩)
        · exact ⟨Or.inl rfl, ha⟩
        · exact ⟨Or.inr hv, fun hc => hs (Or.inr hc)⟩
      · rintro ⟨rfl | hv, hs⟩
        · exact Or.inl rfl
        · by_cases hva : v = a
          · exact Or.inl hva
          · exact Or.inr ⟨hv, fun hc => (by rcases hc with hc | hc; exact hva hc; exact hs hc)⟩

theorem mem_firstOccs (l : List Nat) (v : Nat) : v ∈ firstOccs l ↔ v ∈ l := by
  unfold firstOccs
  rw [mem_dropDupOn_id]
  simp

theorem firstOccs_of_nodup :
    ∀ (l : List Nat), l.Nodup → ∀ (seen : List Nat), (∀ a ∈ l, a ∉ seen) →
      dropDupOn id l seen = l := by
  intro l
  induction l with
  | nil => intro _ seen _; rfl
  | cons a t ih =>
    intro hnd seen hseen
    rcases List.nodup_cons.mp hnd with ⟨hat, hndt⟩
    rw [dropDupOn_cons_not_mem id a t seen (hseen a (List.mem_cons_self a t))]
    congr 1
    refine ih hndt (a :: seen) (fun b hb => ?_)
    intro hc
    rcases List.mem_cons.mp hc with rfl | hc'
    · exact hat hb
    · exact hseen b (List.mem_cons_of_mem a hb) hc'

theorem maxFreq_eq (l : List Nat) :
    maxFreq l = ((firstOccs l).map (fun v => l.count v)).foldl Nat.max 0 := by
  unfold maxFreq
  rw [counter_eq, List.map_map]
  rfl

theorem count_le_maxFreq {l : List Nat} {v : Nat} (hv : v ∈ l) :
    l.count v ≤ maxFreq l := by
  rw [maxFreq_eq]
  exact mem_le_foldl_max _ 0 _
    (List.mem_map_of_mem (fun v => l.count v) ((mem_firstOccs l v).mpr hv))

theorem maxFreq_attained {l : List Nat} (h : l ≠ []) :
    ∃ v ∈ l, l.count v = maxFreq l := by
  rcases foldl_max_mem (((firstOccs l).map (fun v => l.count v))) 0 with h0 | hmem
  · rcases l with _ | ⟨x, t⟩
    · exact absurd rfl h
    · exfalso
      have hx : (x :: t).count x ≤ maxFreq (x :: t) :=
        count_le_maxFreq (List.mem_cons_self x t)
      rw [maxFreq_eq] at *
      rw [h0] at hx
      have : 0 < (x :: t).count x := List.count_pos_iff.mpr (List.mem_cons_self x t)
      omega
  · rcases List.mem_map.mp hmem with ⟨v, hv, hcount⟩
    refine ⟨v, (mem_firstOccs l v).mp hv, ?_⟩
    rw [maxFreq_eq]
    exact hcount

/-- The reported mode list is exactly the first-occurrence key list
restricted to the values attaining the maximum frequency. -/
theorem modes_eq (l : List Nat) :
    modes l = (firstOccs l).filterMap
      (fun v => if l.count v = maxFreq l then some v else none) := by
  unfold modes
  rw [counter_eq, List.filterMap_map]
  rfl

theorem mem_modes (l : List Nat) (v : Nat) :
    v ∈ modes l ↔ v ∈ l ∧ l.count v = maxFreq l := by
  rw [modes_eq, List.mem_filterMap]
  constructor
  · rintro ⟨w, hw, hsome⟩
    by_cases hc : l.count w = maxFreq l
    · rw [if_pos hc] at hsome
      cases hsome
      exact ⟨(mem_firstOccs l v).mp hw, hc⟩
    · rw [if_neg hc] at hsome
      cases hsome
  · rintro ⟨hv, hc⟩
    exact ⟨v, (mem_firstOccs l v).mpr hv, by rw [if_pos hc]⟩

theorem counter_ne_nil {l : List Nat} (h : l ≠ []) : (counter l).isEmpty = false := by
  rcases l with _ | ⟨x, t⟩
  · exact absurd rfl h
  · rw [counter_eq]
    have hx : x ∈ firstOccs (x :: t) := (mem_firstOccs _ x).mpr (List.mem_cons_self x t)
    rcases hfo : firstOccs (x :: t) with _ | ⟨y, ys⟩
    · rw [hfo] at hx
      cases hx
    · rfl

/-! ## Remaining merge lemmas -/

theorem optMin_idem (a : Option Nat) : optMin a a = a := by
  cases a <;> simp [optMin]

theorem mergeStage_right_idem (a b : StageMap) :
    mergeStage (mergeStage a b) b = mergeStage a b := by
  funext s
  rw [mergeStage_eq_optMin, mergeStage_eq_optMin, optMin_assoc, optMin_idem]

theorem mergeStage_self_idem (m : StageMap) : mergeStage m m = m := by
  funext s
  rw [mergeStage_eq_optMin, optMin_idem]

theorem lookupG_foldl {Pid : Type} (ps : List (Glob Pid)) :
    ∀ (g : Glob Pid) (q : Pid) (s : Fin 7),
      lookupG (ps.foldl mergeGlob g) q s
        = optMin (lookupG g q s) (listMin (ps.filterMap (fun p => lookupG p q s))) := by
  induction ps with
  | nil =>
    intro g q s
    show lookupG g q s = optMin (lookupG g q s) (listMin [])
    rw [show listMin [] = none from rfl, optMin_none_right]
  | cons p t ih =>
    intro g q s
    rw [List.foldl_cons, ih, lookupG_mergeGlob, List.filterMap_cons]
    cases hp : lookupG p q s with
    | none => rw [optMin_none_right]
    | some d => rw [listMin_cons, ← optMin_assoc]

theorem lookupG_cleanup {Pid : Type} (g : Glob Pid) (q : Pid) (s : Fin 7) :
    lookupG (cleanupGlob g) q s = lookupG g q s := by
  unfold lookupG cleanupGlob
  rcases hg : g q with _ | m <;> simp only [hg]
  by_cases hall : ∀ s2, m s2 = none
  · rw [if_pos hall]
    exact (hall s).symm
  · rw [if_neg hall]

theorem transitionsFor_pos (m : StageMap) : ∀ ob ∈ transitionsFor m, 0 < ob.2 := by
  intro ob hob
  rcases List.mem_filterMap.mp hob with ⟨nft, _, hval⟩
  rcases hf : m nft.2.1 with _ | df <;> rw [hf] at hval
  · exact Option.noConfusion hval
  · rcases ht : m nft.2.2 with _ | dt <;> rw [ht] at hval
    · exact Option.noConfusion hval
    · have hval2 : (if df < dt then some (nft.1, dt - df) else none) = some ob := hval
      by_cases hlt : df < dt
      · rw [if_pos hlt] at hval2
        cases hval2
        show 0 < dt - df
        omega
      · rw [if_neg hlt] at hval2
        exact Option.noConfusion hval2

theorem filterMap_id_of_forall {α : Type _} {f : α → Option α} :
    ∀ {l : List α}, (∀ a ∈ l, f a = some a) → l.filterMap f = l := by
  intro l
  induction l with
  | nil => intro _; rfl
  | cons a t ih =>
    intro h
    rw [List.filterMap_cons, h a (List.mem_cons_self a t),
      ih (fun b hb => h b (List.mem_cons_of_mem a hb))]

/-! ## Partition processing as an interruptible step sequence

The script's per-archive `try` body (lines 67-206) updates the shared state
in observable units: one membership-set update (line 150) followed by one
global-store merge per patient of the archive (lines 196-202).  An exception
raised after `k` such units leaves the state produced by the first `k` units
(the `except` handlers at lines 208-213 only log and continue). -/

structure RunState (Pid : Type) where
  members : Pid → Bool
  glob : Glob Pid

inductive PStep (Pid : Type) where
  | updMembers (ids : List Pid)
  | mergePatient (pid : Pid) (m : StageMap)

def applyStep {Pid : Type} [DecidableEq Pid] (st : RunState Pid) : PStep Pid → RunState Pid
  | .updMembers ids => { st with members := fun q => st.members q || decide (q ∈ ids) }
  | .mergePatient pid m => { st with glob := mergeOne st.glob pid m }

/-- One partition's contribution: the patient ids of its candidate-coded rows
and the per-patient stage maps produced by the reducer. -/
structure Partition (Pid : Type) where
  memberIds : List Pid
  contribs : List (Pid × StageMap)

def partitionSteps {Pid : Type} (part : Partition Pid) : List (PStep Pid) :=
  PStep.updMembers part.memberIds
    :: part.contribs.map (fun c => PStep.mergePatient c.1 c.2)

/-- State after the first `k` units of a partition's processing; a failure
at that point abandons the rest. -/
def runUpto {Pid : Type} [DecidableEq Pid] (st : RunState Pid)
    (steps : List (PStep Pid)) (k : Nat) : RunState Pid :=
  (steps.take k).foldl applyStep st

theorem foldl_mergePatient {Pid : Type} [DecidableEq Pid] :
    ∀ (l : List (Pid × StageMap)) (st : RunState Pid),
      l.foldl (fun s c => applyStep s (PStep.mergePatient c.1 c.2)) st
        = { st with glob := l.foldl (fun g c => mergeOne g c.1 c.2) st.glob } := by
  intro l
  induction l with
  | nil => intro st; rfl
  | cons c t ih =>
    intro st
    rw [List.foldl_cons, ih]
    rfl

/-! ## Claim theorems -/

/-- C1: Merge order-independence — the merge operation of §4.3 is commutative
and associative, and folding any permutation of a finite collection of
partition stage maps into the global store yields a structurally identical
(extensionally equal) final `GlobalProgression`; pairwise regroupings are
covered by associativity. -/
theorem merge_order_independence {Pid : Type} :
    (∀ a b : Glob Pid, mergeGlob a b = mergeGlob b a) ∧
    (∀ a b c : Glob Pid, mergeGlob (mergeGlob a b) c = mergeGlob a (mergeGlob b c)) ∧
    (∀ (g : Glob Pid) (l₁ l₂ : List (Glob Pid)), l₁.Perm l₂ →
      l₁.foldl mergeGlob g = l₂.foldl mergeGlob g) :=
  ⟨mergeGlob_comm, mergeGlob_assoc, fun g l₁ l₂ p =>
    foldl_perm_inv
      (fun b a₁ a₂ => by rw [mergeGlob_assoc, mergeGlob_assoc, mergeGlob_comm a₁ a₂]) p g⟩

def wGlobA : Glob Bool := fun q =>
  if q then some (fun s => if s = 1 then some 10 else none) else none

def wGlobB : Glob Bool := fun q =>
  if q then some (fun s => if s = 1 then some 7 else if s = 2 then some 20 else none)
  else none

theorem merge_order_independence_witness :
    [wGlobA, wGlobB].foldl mergeGlob emptyGlob
      = [wGlobB, wGlobA].foldl mergeGlob emptyGlob :=
  merge_order_independence.2.2 emptyGlob [wGlobA, wGlobB] [wGlobB, wGlobA]
    (List.Perm.swap wGlobB wGlobA [])

/-- C2: Minimum invariant of the global store — after folding any list of
partition maps into the empty store, the date stored for a (patient, stage)
pair is exactly the minimum of every date observed for that pair across the
partitions (hence ≤ each of them); a merge step can only lower a stored
date, never raise or remove it; and the post-loop cleanup pass removes no
(patient, stage) entry. -/
theorem global_store_minimum_invariant {Pid : Type}
    (ps : List (Glob Pid)) (q : Pid) (s : Fin 7) :
    lookupG (ps.foldl mergeGlob emptyGlob) q s
        = listMin (ps.filterMap (fun p => lookupG p q s)) ∧
    (∀ d, lookupG (ps.foldl mergeGlob emptyGlob) q s = some d →
      ∀ p ∈ ps, ∀ d2, lookupG p q s = some d2 → d ≤ d2) ∧
    (∀ (g p : Glob Pid) (d : Nat), lookupG g q s = some d →
      ∃ d2, d2 ≤ d ∧ lookupG (mergeGlob g p) q s = some d2) ∧
    (∀ g : Glob Pid, lookupG (cleanupGlob g) q s = lookupG g q s) := by
  have hmain : lookupG (ps.foldl mergeGlob emptyGlob) q s
      = listMin (ps.filterMap (fun p => lookupG p q s)) := by
    rw [lookupG_foldl]
    rfl
  refine ⟨hmain, ?_, ?_, fun g => lookupG_cleanup g q s⟩
  · intro d hd p hp d2 hd2
    rw [hmain] at hd
    exact listMin_le hd d2 (List.mem_filterMap.mpr ⟨p, hp, hd2⟩)
  · intro g p d hd
    rw [lookupG_mergeGlob, hd]
    cases hp : lookupG p q s with
    | none => exact ⟨d, Nat.le_refl d, rfl⟩
    | some e => exact ⟨min d e, Nat.min_le_left d e, rfl⟩

theorem global_store_minimum_invariant_witness :
    lookupG ([wGlobA, wGlobB].foldl mergeGlob emptyGlob) true 1 = some 7 ∧
    (7 : Nat) ≤ 10 ∧
    (∃ d2, d2 ≤ 10 ∧ lookupG (mergeGlob wGlobA wGlobB) true 1 = some d2) := by
  have h := global_store_minimum_invariant [wGlobA, wGlobB] true (1 : Fin 7)
  refine ⟨?_, ?_, ?_⟩
  · rw [h.1]
    decide
  · exact h.2.1 7 (by rw [h.1]; decide) wGlobA (List.mem_cons_self _ _) 10 (by decide)
  · exact h.2.2.1 wGlobA wGlobB 10 (by decide)

/-- C3: Forward-only transitions — for every merged stage map and every
configured TransitionSpec whose two stages are both present, an observation
with duration `date(to) - date(from)` is emitted iff that delta is strictly
positive (so a delta ≤ 0 emits nothing, without error), and every emitted
observation has strictly positive duration. -/
theorem transitions_strictly_forward (m : StageMap) :
    (∀ ob ∈ transitionsFor m, 0 < ob.2) ∧
    (∀ name f t, (name, f, t) ∈ stage_transitions →
      ∀ df dt, m f = some df → m t = some dt →
        ((name, dt - df) ∈ transitionsFor m ↔ df < dt)) := by
  refine ⟨transitionsFor_pos m, ?_⟩
  intro name f t hmem df dt hf ht
  constructor
  · intro hin
    have hpos := transitionsFor_pos m (name, dt - df) hin
    simp only at hpos
    omega
  · intro hlt
    refine List.mem_filterMap.mpr ⟨(name, f, t), hmem, ?_⟩
    show (match m f, m t with
      | some date_from, some date_to =>
          if date_from < date_to then some (name, date_to - date_from) else none
      | _, _ => none) = some (name, dt - df)
    rw [hf, ht]
    exact if_pos hlt

def wStageM : StageMap := fun s =>
  if s = 1 then some 100 else if s = 2 then some 115 else none

theorem transitions_strictly_forward_witness :
    ("Stage 1 to Stage 2", (15 : Nat)) ∈ transitionsFor wStageM :=
  ((transitions_strictly_forward wStageM).2 "Stage 1 to Stage 2" 1 2
    (List.mem_cons_self _ _) 100 115 (by decide) (by decide)).mpr (by decide)

/-- C8: Idempotent re-merge — merging the same partition map into the store
a second time leaves the store unchanged. -/
theorem merge_idempotent {Pid : Type} (g p : Glob Pid) :
    mergeGlob (mergeGlob g p) p = mergeGlob g p := by
  funext q
  simp only [mergeGlob]
  cases hp : p q with
  | none => rfl
  | some mp =>
    cases hg : g q with
    | none => exact congrArg some (mergeStage_self_idem mp)
    | some mg => exact congrArg some (mergeStage_right_idem mg mp)

/-- C9: Reducer equivalence — the implemented multi-pass per-patient
reduction (sort by date ascending then stage descending, drop duplicate
stages keeping the first, re-sort by date, per-row minimum update) equals
the direct grouped-minimum reduction, and is invariant under any
permutation of the input row order. -/
theorem reducer_equivalence :
    (∀ l : List StagedRow, reducePatientRows l = groupedMinReducer l) ∧
    (∀ l₁ l₂ : List StagedRow, l₁.Perm l₂ →
      reducePatientRows l₁ = reducePatientRows l₂) :=
  ⟨reducePatientRows_eq_groupedMin, fun l₁ l₂ p => by
    rw [reducePatientRows_eq_groupedMin, reducePatientRows_eq_groupedMin]
    exact groupedMinReducer_perm p⟩

theorem reducer_equivalence_witness :
    reducePatientRows [((2 : Fin 7), 50), ((1 : Fin 7), 30)]
      = reducePatientRows [((1 : Fin 7), 30), ((2 : Fin 7), 50)] :=
  reducer_equivalence.2 _ _ (List.Perm.swap ((1 : Fin 7), 30) ((2 : Fin 7), 50) [])

/-- C4 counterexample: with one membership update already applied and the
first of two patients merged, a failure after 2 of 3 processing units (a
mid-partition failure) leaves the global store different from the state
before the partition began — the claim's "left exactly as they were" is
false. -/
def exMapC4 : StageMap := fun s => if s = 1 then some 5 else none

def exPartC4 : Partition Bool :=
  { memberIds := [true], contribs := [(true, exMapC4), (false, exMapC4)] }

def exStateC4 : RunState Bool := { members := fun _ => false, glob := emptyGlob }

theorem partition_failure_not_atomic :
    2 < (partitionSteps exPartC4).length ∧
    runUpto exStateC4 (partitionSteps exPartC4) 2 ≠ exStateC4 := by
  constructor
  · decide
  · intro h
    have h2 := congrArg (fun st => RunState.glob st true) h
    exact absurd h2 (by decide)

/-- C4 (amended): a failure before any processing unit of a partition has
run (while opening or reading the archive) leaves the run state exactly
unchanged; once processing has begun, the state after `k + 1` units is
exactly the membership set updated with the partition's candidate patients
together with the global store merged with the contributions of the first
`k` patients — whole per-patient units, never a fraction of one (at the
granularity modelled by `partitionSteps`). -/
theorem partition_failure_initial_segment {Pid : Type} [DecidableEq Pid]
    (part : Partition Pid) (st : RunState Pid) (k : Nat) :
    runUpto st (partitionSteps part) 0 = st ∧
    runUpto st (partitionSteps part) (k + 1) =
      { members := fun q => st.members q || decide (q ∈ part.memberIds),
        glob := (part.contribs.take k).foldl (fun g c => mergeOne g c.1 c.2) st.glob } := by
  constructor
  · rfl
  · unfold runUpto partitionSteps
    rw [List.take_succ_cons, List.foldl_cons, ← List.map_take, List.foldl_map,
      foldl_mergePatient]
    rfl

/-- C5 counterexample: a patient whose only in-window record carries the
candidate code `713313000` — which the stage classifier maps to unmapped —
is nevertheless added to the population-membership set, so membership is
not equivalent to having a non-unmapped code. -/
def unmappedRowC5 : CondRec Bool :=
  { patient := true, code := "713313000", occurred_on := some CKD_DATE_RANGE_START }

theorem membership_includes_unmapped_codes :
    map_code_to_stage unmappedRowC5.code = none ∧
    in_window unmappedRowC5 = true ∧
    true ∈ current_archive_ckd_patient_ids [unmappedRowC5] := by
  refine ⟨by decide, ?_, ?_⟩ <;> decide

/-- C5 (amended): a patient_id is added to the population-membership set iff
it has at least one in-window record whose code is in the candidate CKD
code list `ckd_snomed_codes` (a strict superset of the codes that classify
to a stage, so the set is a superset of the patients with any classified
stage 0-6 code — in particular of those with stage 1-6 diagnoses — but a
patient whose only in-window candidate codes classify as unmapped is also a
member). -/
theorem membership_candidate_code_iff {Pid : Type}
    (rows : List (CondRec Pid)) (q : Pid) :
    (q ∈ current_archive_ckd_patient_ids rows ↔
      ∃ r ∈ rows, in_window r = true ∧ r.code ∈ ckd_snomed_codes ∧ r.patient = q) ∧
    (∀ r ∈ rows, in_window r = true → map_code_to_stage r.code ≠ none →
      r.patient ∈ current_archive_ckd_patient_ids rows) :=
  ⟨mem_current_archive_ids rows q, fun r hr hw hm =>
    (mem_current_archive_ids rows r.patient).mpr
      ⟨r, hr, hw, map_code_mem_candidates hm, rfl⟩⟩

def stagedRowC5 : CondRec Bool :=
  { patient := false, code := "431855005", occurred_on := some CKD_DATE_RANGE_START }

theorem membership_candidate_code_iff_witness :
    false ∈ current_archive_ckd_patient_ids [stagedRowC5] :=
  (membership_candidate_code_iff [stagedRowC5] false).2 stagedRowC5
    (List.mem_cons_self _ _) (by decide) (by decide)

/-! ## End-to-end scenario (C6) -/

def scenarioMapA : StageMap := fun s =>
  if s = 1 then some (toDayNumber 2000 1 1)
  else if s = 2 then some (toDayNumber 2000 6 1)
  else none

def scenarioGlobA : Glob String := fun q => if q = "P1" then some scenarioMapA else none

def scenarioMapB : StageMap := fun s =>
  if s = 2 then some (toDayNumber 2000 5 1) else none

def scenarioGlobB : Glob String := fun q => if q = "P1" then some scenarioMapB else none

/-- C6 counterexample: with partition A giving P1 stage 1 on 2000-01-01 and
stage 2 on 2000-06-01 and partition B giving stage 2 on 2000-05-01, the
emitted "Stage 1 to Stage 2" duration for P1 is 121 days, not the claimed
120 (2000 is a leap year, so 2000-01-01 to 2000-05-01 spans 31+29+31+30
days). -/
theorem scenario_duration_not_120 :
    toDayNumber 2000 5 1 - toDayNumber 2000 1 1 = 121 ∧
    ("Stage 1 to Stage 2", (121 : Nat)) ∈
      patientTransitions (mergeGlob (mergeGlob emptyGlob scenarioGlobA) scenarioGlobB) "P1" ∧
    ("Stage 1 to Stage 2", (120 : Nat)) ∉
      patientTransitions (mergeGlob (mergeGlob emptyGlob scenarioGlobA) scenarioGlobB) "P1" := by
  refine ⟨by decide, ?_, ?_⟩ <;> decide

/-- C6 (amended): merging the two partitions in either order stores
2000-05-01 (the minimum) as P1's stage-2 date, and the emitted
"Stage 1 to Stage 2" duration for P1 is exactly 121 days. -/
theorem scenario_merge_and_duration :
    lookupG (mergeGlob (mergeGlob emptyGlob scenarioGlobA) scenarioGlobB) "P1" 2
        = some (toDayNumber 2000 5 1) ∧
    lookupG (mergeGlob (mergeGlob emptyGlob scenarioGlobB) scenarioGlobA) "P1" 2
        = some (toDayNumber 2000 5 1) ∧
    ("Stage 1 to Stage 2", (121 : Nat)) ∈
      patientTransitions (mergeGlob (mergeGlob emptyGlob scenarioGlobA) scenarioGlobB) "P1" ∧
    ("Stage 1 to Stage 2", (121 : Nat)) ∈
      patientTransitions (mergeGlob (mergeGlob emptyGlob scenarioGlobB) scenarioGlobA) "P1" := by
  refine ⟨?_, ?_, ?_, ?_⟩ <;> decide

/-- C7 counterexample: on observations `[9, 9, 5, 5]` the mode values are
reported as `[9, 5]` — first-occurrence order, not an ascending ordering as
the claim states. -/
theorem mode_values_not_ascending :
    modes [9, 9, 5, 5] = [9, 5] ∧
    maxFreq [9, 9, 5, 5] = 2 ∧
    ¬ List.Sorted (· ≤ ·) (modes [9, 9, 5, 5]) := by
  refine ⟨by decide, by decide, ?_⟩
  decide

/-- C7 (amended): for a non-empty observation list, `mode_values` is the set
of every duration value attaining the maximum observation frequency —
reported in first-occurrence order rather than ascending — together with
that maximum frequency, which is attained and bounds every value's count;
in particular `[5, 5, 9, 9]` yields modes `[5, 9]` with frequency 2. -/
theorem mode_set_first_occurrence (l : List Nat) :
    modes l = (firstOccs l).filterMap
        (fun v => if l.count v = maxFreq l then some v else none) ∧
    (∀ v, v ∈ modes l ↔ v ∈ l ∧ l.count v = maxFreq l) ∧
    (∀ v ∈ l, l.count v ≤ maxFreq l) ∧
    (l ≠ [] →
      (∃ v ∈ l, l.count v = maxFreq l) ∧
      modeResult l = some (modes l, maxFreq l)) := by
  refine ⟨modes_eq l, mem_modes l, fun v hv => count_le_maxFreq hv, fun hne => ?_⟩
  refine ⟨maxFreq_attained hne, ?_⟩
  unfold modeResult
  rw [counter_ne_nil hne]
  rfl

theorem mode_set_first_occurrence_witness :
    ([5, 5, 9, 9] : List Nat).count 5 ≤ maxFreq [5, 5, 9, 9] ∧
    (∃ v ∈ ([5, 5, 9, 9] : List Nat), ([5, 5, 9, 9] : List Nat).count v = maxFreq [5, 5, 9, 9]) ∧
    modeResult [5, 5, 9, 9] = some ([5, 9], 2) := by
  have h := mode_set_first_occurrence [5, 5, 9, 9]
  refine ⟨h.2.2.1 5 (by decide), (h.2.2.2 (by decide)).1, ?_⟩
  rw [(h.2.2.2 (by decide)).2]
  decide

/-- C10: when a non-empty observation list has pairwise distinct values,
every observed value is reported as a mode (in input order) with mode
frequency 1, and the result is never the "no data" sentinel. -/
theorem distinct_durations_all_modes (l : List Nat) (hne : l ≠ []) (hnd : l.Nodup) :
    modeResult l = some (l, 1) := by
  have hfo : firstOccs l = l :=
    firstOccs_of_nodup l hnd [] (fun a _ h => (List.not_mem_nil a) h)
  have hcount : ∀ v ∈ l, l.count v = 1 := fun v hv => List.count_eq_one_of_mem hnd hv
  have hmax : maxFreq l = 1 := by
    rcases maxFreq_attained hne with ⟨v, hv, hc⟩
    rw [← hc, hcount v hv]
  have hmodes : modes l = l := by
    rw [modes_eq, hfo]
    refine filterMap_id_of_forall (fun v hv => ?_)
    rw [if_pos (by rw [hcount v hv, hmax])]
  unfold modeResult
  rw [counter_ne_nil hne, hmodes, hmax]
  rfl

theorem distinct_durations_all_modes_witness :
    modeResult [3, 1, 2] = some ([3, 1, 2], 1) :=
  distinct_durations_all_modes [3, 1, 2] (by decide) (by decide)
